import Mathlib

/-!
Verification development for the async-parallel repository.

The core of the repository is the promise-based worker-pool scheduler
`pool(size, task)` in src/index.ts together with iteration combinators
(`each`, `invoke`, `map`, `filter`, `every`, `some`, `reduce`) that adapt a
shared mutable cursor over an input list into the pool's producer contract.

The JavaScript runtime is single-threaded and cooperative: a producer
invocation runs synchronously from its start up to its first `await`
(the claim step), suspends, and later its continuation (the code after the
`await` together with the pool's `.then`/`.catch` handler) runs atomically.
We embed this as a small-step transition system: a state records the pool
counters and the combinator's shared variables, a step is the atomic
completion of one in-flight producer invocation chosen by an adversarial
schedule (a list of indices into the in-flight list), and the synchronous
refill loop of `next()` is folded into the step that triggers it.
-/

/- ### Part 1: the pool scheduler, with an abstract (adversarial) producer.

Models `pool(size, task)` from src/index.ts where the producer is a black
box: each in-flight invocation eventually settles with `ok more` (the
promise resolved with the boolean `more`) or `fail err` (it rejected).
`active` is the JS `active` counter (kept as an integer so that its
non-negativity is a proved invariant, not a typing artifact), `done` the JS
`done` flag, `errors` the captured failures in completion order, `settled`
the terminal resolve/reject event of the returned promise, and `launched`
counts every producer invocation ever started. -/

/-- Terminal event of a pool run: `resolve()` or `reject(new MultiError(errors))`. -/
inductive PoolRes (E : Type) : Type
  | resolved : PoolRes E
  | rejected : List E → PoolRes E
  deriving DecidableEq

/-- Outcome delivered by the schedule for one in-flight producer invocation. -/
inductive PoolEv (E : Type) : Type
  | ok : Bool → PoolEv E
  | fail : E → PoolEv E
  deriving DecidableEq

/-- State of one `pool` run: the local variables of `pool` in src/index.ts
plus the settlement status of the promise it returns and a count of
producer invocations started so far. -/
structure PoolState (E : Type) : Type where
  active : ℤ
  done : Bool
  errors : List E
  settled : Option (PoolRes E)
  launched : ℤ
  deriving DecidableEq

variable {E : Type}

/-- The synchronous refill loop `next()`:
`while (active < size && !done) { active += 1; task() ... }`.
`done` cannot change during the loop, so its net effect is to raise
`active` to `size` (launching `size - active` invocations) when
`!done && active < size`, and to do nothing otherwise. -/
def poolNext (size : ℕ) (s : PoolState E) : PoolState E :=
  if s.done = false ∧ s.active < (size : ℤ) then
    { s with active := (size : ℤ), launched := s.launched + ((size : ℤ) - s.active) }
  else s

/-- `errors.length === 0 ? resolve() : reject(new MultiError(errors))`. -/
def poolSettleVal (errs : List E) : PoolRes E :=
  match errs with
  | [] => PoolRes.resolved
  | _ => PoolRes.rejected errs

/-- One atomic completion step of a pool run: the schedule delivers outcome
`e` for one in-flight invocation (enabled only when one exists, i.e.
`active > 0`). Mirrors the `.then`/`.catch` handlers of `task()` in
`pool`. -/
def poolStep (size : ℕ) (s : PoolState E) (e : PoolEv E) : Option (PoolState E) :=
  if s.active ≤ 0 then none
  else
    match e with
    | PoolEv.ok more =>
      let a := s.active - 1
      if a = 0 ∧ (s.done = true ∨ more = false) then
        some { s with active := a, settled := some (poolSettleVal s.errors) }
      else if more then
        some (poolNext size { s with active := a })
      else
        some { s with active := a, done := true }
    | PoolEv.fail err =>
      let a := s.active - 1
      let errs := s.errors ++ [err]
      let stl := if a = 0 then some (PoolRes.rejected errs) else s.settled
      some { s with active := a, done := true, errors := errs, settled := stl }

/-- Initial state of a pool run: fresh counters followed by the first
`next()` call made in the promise executor. -/
def poolInit (size : ℕ) : PoolState E :=
  poolNext size { active := 0, done := false, errors := [], settled := none, launched := 0 }

/-- Run a sequence of completion outcomes from an arbitrary state. -/
def poolStepsFrom (size : ℕ) (s : PoolState E) (tr : List (PoolEv E)) : Option (PoolState E) :=
  tr.foldlM (poolStep size) s

/-- A full pool run: initial refill, then the scheduled completions. -/
def poolRun (size : ℕ) (tr : List (PoolEv E)) : Option (PoolState E) :=
  poolStepsFrom size (poolInit size) tr

/-- The failures delivered by a schedule, in completion order. -/
def poolFailures (tr : List (PoolEv E)) : List E :=
  tr.filterMap (fun e => match e with
    | PoolEv.fail err => some err
    | PoolEv.ok _ => none)

/- ### Part 2: the combinator machine.

Each combinator wraps shared mutable variables (the cloned input list, the
counter `i`, and an accumulator) into a producer closure handed to `pool`.
The closure's synchronous prefix (up to its first `await`) claims the next
element; its continuation records the callback's result and evaluates the
producer's return expression on the *current* shared state. Since the
claims happen synchronously inside the refill loop and the callbacks in
the claims under verification are pure, the callback's eventual result is
determined at claim time and is carried in the in-flight record. -/

/-- How a particular combinator instantiates the shared-cursor producer:
`init` builds the accumulator from the input snapshot, `onClaim` runs the
synchronous prefix at index `j` on claimed value `v` with remaining queue
`q` (returning the callback's eventual result and a log entry recording
the exact arguments passed to the callback), `onComplete` runs the
continuation after the callback settles, and `more` is the producer's
return expression, evaluated at completion time on the then-current
accumulator and queue. -/
structure CombSpec (α β σ ι : Type) : Type where
  init : List α → σ
  onClaim : σ → ℕ → α → List α → β × ι
  onComplete : σ → ℕ → α → β → σ
  more : σ → List α → Bool

/-- State of one combinator run. `orig` is the input snapshot (`list.slice(0)`),
`queue` the shared list after the `shift()` calls so far, `idx` the shared
counter `i`, `acc` the combinator's accumulator, `pending` the in-flight
producer invocations (`none` is an invocation that found the queue empty
and will simply return at its completion), `done`/`settled` the pool
flags, and `log` every callback invocation with its arguments, in claim
order. -/
structure CState (α β σ ι : Type) : Type where
  orig : List α
  queue : List α
  idx : ℕ
  acc : σ
  pending : List (Option (ℕ × α × β))
  done : Bool
  settled : Bool
  log : List ι

variable {α β σ ι γ : Type}

/-- One `task()` call made by the refill loop: the synchronous prefix of
the producer closure (the claim step), or a no-op invocation when the
queue is already empty. -/
def launch1 (sp : CombSpec α β σ ι) (s : CState α β σ ι) : CState α β σ ι :=
  match s.queue with
  | [] => { s with pending := s.pending ++ [none] }
  | v :: q =>
    let c := sp.onClaim s.acc s.idx v q
    { s with queue := q, idx := s.idx + 1,
             pending := s.pending ++ [some (s.idx, v, c.1)],
             log := s.log ++ [c.2] }

/-- Iterated launches. -/
def refillN (sp : CombSpec α β σ ι) : ℕ → CState α β σ ι → CState α β σ ι
  | 0, s => s
  | k + 1, s => refillN sp k (launch1 sp s)

/-- The refill loop `next()` of `pool`, at combinator level:
`while (active < size && !done)` launch one invocation. `done` is fixed
during the loop and each launch adds one in-flight record, so exactly
`size - pending.length` launches happen when `!done`. -/
def refill (sp : CombSpec α β σ ι) (size : ℕ) (s : CState α β σ ι) : CState α β σ ι :=
  if s.done then s else refillN sp (size - s.pending.length) s

/-- The pool's `.then` handler after a producer invocation resolved with
`m`: settle when the pool drained, refill when `m` is true, otherwise set
`done`. -/
def settleCheck (sp : CombSpec α β σ ι) (size : ℕ) (s : CState α β σ ι) (m : Bool) :
    CState α β σ ι :=
  if s.pending.length = 0 ∧ (s.done = true ∨ m = false) then { s with settled := true }
  else if m then refill sp size s
  else { s with done := true }

/-- One atomic completion step: the schedule picks in-flight invocation
number `k`; its continuation runs (accumulator update, then the producer's
return expression on the current shared state), followed by the pool's
handler. -/
def complete (sp : CombSpec α β σ ι) (size : ℕ) (s : CState α β σ ι) (k : ℕ) :
    Option (CState α β σ ι) :=
  match s.pending.get? k with
  | none => none
  | some item =>
    let s1 := { s with pending := s.pending.eraseIdx k }
    match item with
    | none => some (settleCheck sp size s1 (sp.more s1.acc s1.queue))
    | some (j, v, r) =>
      let s2 := { s1 with acc := sp.onComplete s1.acc j v r }
      some (settleCheck sp size s2 (sp.more s2.acc s2.queue))

/-- Fresh combinator state for input snapshot `xs`. -/
def initC (sp : CombSpec α β σ ι) (xs : List α) : CState α β σ ι :=
  { orig := xs, queue := xs, idx := 0, acc := sp.init xs,
    pending := [], done := false, settled := false, log := [] }

/-- State after `pool`'s initial `next()` call. -/
def startC (sp : CombSpec α β σ ι) (size : ℕ) (xs : List α) : CState α β σ ι :=
  refill sp size (initC sp xs)

/-- A combinator run under completion schedule `tr`. -/
def runC (sp : CombSpec α β σ ι) (size : ℕ) (xs : List α) (tr : List ℕ) :
    Option (CState α β σ ι) :=
  tr.foldlM (complete sp size) (startC sp size xs)

/-- A combinator run that reached settlement of the pool promise. -/
def runSettled (sp : CombSpec α β σ ι) (size : ℕ) (xs : List α) (tr : List ℕ) :
    Option (CState α β σ ι) :=
  match runC sp size xs tr with
  | none => none
  | some s => if s.settled then some s else none

/-- Effective concurrency: `resolveOptions(options).concurrency || list.length`
(an explicit per-call limit if given, else the module-level default, with
`0` meaning the collection's length). -/
def effSize (optConc : Option ℕ) (globalConc : ℕ) (len : ℕ) : ℕ :=
  let c := optConc.getD globalConc
  if c = 0 then len else c

/- ### Part 3: the individual combinators as instances of the machine. -/

/-- `map`'s producer: `var j = i++; result[j] = await action(list.shift(), j, list);
return list.length > 0;`. The accumulator is the `result` array, a partial
map from positions to values (a JS array written by index assignment). -/
def mapSpec (f : α → ℕ → List α → β) :
    CombSpec α β (ℕ → Option β) (α × ℕ × List α) :=
  { init := fun _ => fun _ => none
    onClaim := fun _ j v q => (f v j q, (v, j, q))
    onComplete := fun acc j _ r => Function.update acc j (some r)
    more := fun _ q => decide (0 < q.length) }

/-- `filter`'s producer: `var j = i++; var value = clone.shift();
if (await action(value, i, clone)) result[j] = value; return clone.length > 0;`.
Note the callback receives `i` — the counter *after* the increment, i.e.
`j + 1` — and the already-shifted clone. Elements are JS values that may
be `undefined`, embedded as `Option γ` with `none` for `undefined`. -/
def filterSpec (p : Option γ → ℕ → List (Option γ) → Bool) :
    CombSpec (Option γ) Bool (ℕ → Option (Option γ)) (Option γ × ℕ × List (Option γ)) :=
  { init := fun _ => fun _ => none
    onClaim := fun _ j v q => (p v (j + 1) q, (v, j + 1, q))
    onComplete := fun acc j v r => if r then Function.update acc j (some v) else acc
    more := fun _ q => decide (0 < q.length) }

/-- `every`'s producer: `if (!await action(list.shift(), i++, list)) result = false;
return !result || list.length > 0;`. The return expression reads `result`
after the potential write. -/
def everySpec (p : α → ℕ → List α → Bool) :
    CombSpec α Bool Bool (α × ℕ × List α) :=
  { init := fun _ => true
    onClaim := fun _ j v q => (p v j q, (v, j, q))
    onComplete := fun acc _ _ r => if r then acc else false
    more := fun acc q => !acc || decide (0 < q.length) }

/-- `some`'s producer: `if (await action(list.shift(), i++, list)) result = true;
return result || list.length > 0;`. -/
def someSpec (p : α → ℕ → List α → Bool) :
    CombSpec α Bool Bool (α × ℕ × List α) :=
  { init := fun _ => false
    onClaim := fun _ j v q => (p v j q, (v, j, q))
    onComplete := fun acc _ _ r => if r then true else acc
    more := fun acc q => acc || decide (0 < q.length) }

/-- `reduce`'s producer: `result = await action(result, list.shift(), i++, list);
return list.length > 0;`. The accumulator `result` is read in the
synchronous prefix (it is an argument of the callback) and written only
after the callback settles. -/
def reduceSpec (f : σ → α → ℕ → List α → σ) (seed : σ) :
    CombSpec α σ σ (σ × α × ℕ × List α) :=
  { init := fun _ => seed
    onClaim := fun acc j v q => (f acc v j q, (acc, v, j, q))
    onComplete := fun _ _ _ r => r
    more := fun _ q => decide (0 < q.length) }

/-- `each`'s producer: `if (list.length > 0) await action(list.shift());
return list.length > 0;`. The callback result is discarded. -/
def eachSpec (f : α → β) : CombSpec α β Unit α :=
  { init := fun _ => ()
    onClaim := fun _ _ v _ => (f v, v)
    onComplete := fun a _ _ _ => a
    more := fun _ q => decide (0 < q.length) }

/-- `invoke`'s producer: `if (list.length > 0) await list.shift().call(this);
return list.length > 0;`. The elements are the thunks themselves; the log
records which thunk was invoked. -/
def invokeSpec : CombSpec α Unit Unit α :=
  { init := fun _ => ()
    onClaim := fun _ _ v _ => ((), v)
    onComplete := fun a _ _ _ => a
    more := fun _ q => decide (0 < q.length) }

/-- The `result` array returned by `map`: the written slots in index order. -/
def mapOutput (s : CState α β (ℕ → Option β) ι) : List β :=
  (List.range s.orig.length).filterMap s.acc

/-- The array returned by `filter`: `result.filter(value => value !== undefined)` —
the written slots in index order, with slots holding `undefined` removed. -/
def filterOutput (s : CState (Option γ) Bool (ℕ → Option (Option γ)) ι) : List (Option γ) :=
  ((List.range s.orig.length).filterMap s.acc).filter (fun v => v.isSome)

/- ### Part 4: the exported combinators.

Each takes the input as `Option (List _)` (`none` for a null/undefined
collection), guards with `if (list && list.length > 0)`, and otherwise
runs the machine under the given completion schedule. The result is
`none` when the schedule is invalid or does not settle the run; a settled
run yields the JS return value paired with the full callback-invocation
log. -/

/-- `each(list, action, options)` from src/index.ts. -/
def eachJs (input : Option (List α)) (f : α → β) (optConc : Option ℕ) (globalConc : ℕ)
    (tr : List ℕ) : Option (Unit × List α) :=
  match input with
  | none => some ((), [])
  | some xs =>
    if 0 < xs.length then
      (runSettled (eachSpec f) (effSize optConc globalConc xs.length) xs tr).map
        (fun s => ((), s.log))
    else some ((), [])

/-- `invoke(list, options)` from src/index.ts. -/
def invokeJs (input : Option (List α)) (optConc : Option ℕ) (globalConc : ℕ)
    (tr : List ℕ) : Option (Unit × List α) :=
  match input with
  | none => some ((), [])
  | some xs =>
    if 0 < xs.length then
      (runSettled (invokeSpec) (effSize optConc globalConc xs.length) xs tr).map
        (fun s => ((), s.log))
    else some ((), [])

/-- `map(list, action, options)` from src/index.ts. -/
def mapJs (input : Option (List α)) (f : α → ℕ → List α → β) (optConc : Option ℕ)
    (globalConc : ℕ) (tr : List ℕ) : Option (List β × List (α × ℕ × List α)) :=
  match input with
  | none => some ([], [])
  | some xs =>
    if 0 < xs.length then
      (runSettled (mapSpec f) (effSize optConc globalConc xs.length) xs tr).map
        (fun s => (mapOutput s, s.log))
    else some ([], [])

/-- `filter(list, action, options)` from src/index.ts. -/
def filterJs (input : Option (List (Option γ))) (p : Option γ → ℕ → List (Option γ) → Bool)
    (optConc : Option ℕ) (globalConc : ℕ) (tr : List ℕ) :
    Option (List (Option γ) × List (Option γ × ℕ × List (Option γ))) :=
  match input with
  | none => some ([], [])
  | some xs =>
    if 0 < xs.length then
      (runSettled (filterSpec p) (effSize optConc globalConc xs.length) xs tr).map
        (fun s => (filterOutput s, s.log))
    else some ([], [])

/-- `every(list, action, options)` from src/index.ts. -/
def everyJs (input : Option (List α)) (p : α → ℕ → List α → Bool) (optConc : Option ℕ)
    (globalConc : ℕ) (tr : List ℕ) : Option (Bool × List (α × ℕ × List α)) :=
  match input with
  | none => some (true, [])
  | some xs =>
    if 0 < xs.length then
      (runSettled (everySpec p) (effSize optConc globalConc xs.length) xs tr).map
        (fun s => (s.acc, s.log))
    else some (true, [])

/-- `some(list, action, options)` from src/index.ts. -/
def someJs (input : Option (List α)) (p : α → ℕ → List α → Bool) (optConc : Option ℕ)
    (globalConc : ℕ) (tr : List ℕ) : Option (Bool × List (α × ℕ × List α)) :=
  match input with
  | none => some (false, [])
  | some xs =>
    if 0 < xs.length then
      (runSettled (someSpec p) (effSize optConc globalConc xs.length) xs tr).map
        (fun s => (s.acc, s.log))
    else some (false, [])

/-- `reduce(list, action, value, options)` from src/index.ts. -/
def reduceJs (input : Option (List α)) (f : σ → α → ℕ → List α → σ) (seed : σ)
    (optConc : Option ℕ) (globalConc : ℕ) (tr : List ℕ) :
    Option (σ × List (σ × α × ℕ × List α)) :=
  match input with
  | none => some (seed, [])
  | some xs =>
    if 0 < xs.length then
      (runSettled (reduceSpec f seed) (effSize optConc globalConc xs.length) xs tr).map
        (fun s => (s.acc, s.log))
    else some (seed, [])

/- ### Part 5: invariant definitions. -/

/-- Inductive invariant of a pool run, relative to the list `fl` of
failures delivered so far: the active count stays within bounds, `errors`
is exactly the delivered failures in completion order, settlement implies
a drained pool, a drained pool in the draining state is settled, and the
settlement value is a resolve exactly when no error was captured. -/
def PoolInv (size : ℕ) (fl : List E) (s : PoolState E) : Prop :=
  0 ≤ s.active ∧ s.active ≤ (size : ℤ) ∧ s.errors = fl ∧
  (s.settled.isSome = true → s.active = 0) ∧
  (s.done = true → s.active = 0 → s.settled.isSome = true) ∧
  (∀ r, s.settled = some r →
    (s.errors = [] ∧ r = PoolRes.resolved) ∨ (s.errors ≠ [] ∧ r = PoolRes.rejected s.errors))

/-- The in-flight claim records of a combinator state. -/
def claimsOf (s : CState α β σ ι) : List (ℕ × α × β) :=
  s.pending.filterMap id

/-- The positions currently claimed but not yet completed. -/
def claimIdxs (s : CState α β σ ι) : List ℕ :=
  (claimsOf s).map (fun c => c.1)

variable {δ : Type}

/-- Conditions making a combinator instance a slot machine over input
snapshot `xs`: its accumulator is a partial map from claimed positions to
output values, initially empty; the callback is pure, so the completion
value of the claim at position `j` is `resFn j`; the continuation writes
position `j` (with value `outv j`) exactly when `keep j` holds and leaves
every other position alone; and the producer reports no more work only
when the shared queue is empty. `map` and `filter` are instances. -/
structure SlotOk [Inhabited α] (sp : CombSpec α β (ℕ → Option δ) ι) (xs : List α)
    (resFn : ℕ → β) (keep : ℕ → Bool) (outv : ℕ → δ) : Prop where
  init_eq : sp.init xs = fun _ => none
  claim_res : ∀ (acc : ℕ → Option δ) (j : ℕ), j < xs.length →
    (sp.onClaim acc j (xs.getD j default) (xs.drop (j + 1))).1 = resFn j
  comp_eq : ∀ (acc : ℕ → Option δ) (j : ℕ), j < xs.length →
    sp.onComplete acc j (xs.getD j default) (resFn j)
      = fun i => if i = j then (if keep j = true then some (outv j) else acc j) else acc i
  more_false : ∀ (acc : ℕ → Option δ) (q : List α), sp.more acc q = false → q = []

/-- Inductive invariant of a slot-machine run: the shared queue is the
input minus the claimed prefix, every in-flight claim carries the input
element and callback result of its position, claimed positions are
distinct, and the accumulator holds exactly the kept results of the
positions that were claimed and completed. -/
structure SlotInv [Inhabited α] (xs : List α) (resFn : ℕ → β) (keep : ℕ → Bool)
    (outv : ℕ → δ) (s : CState α β (ℕ → Option δ) ι) : Prop where
  orig_eq : s.orig = xs
  queue_eq : s.queue = xs.drop s.idx
  idx_le : s.idx ≤ xs.length
  claims_lt : ∀ c ∈ claimsOf s, c.1 < s.idx
  claims_val : ∀ c ∈ claimsOf s, c.2.1 = xs.getD c.1 default
  claims_res : ∀ c ∈ claimsOf s, c.2.2 = resFn c.1
  claims_nodup : (claimIdxs s).Nodup
  slots : ∀ j, s.acc j =
    if j < s.idx ∧ j ∉ claimIdxs s ∧ keep j = true then some (outv j) else none
  done_queue : s.done = true → s.queue = []
  settled_pending : s.settled = true → s.pending = []
  settled_queue : s.settled = true → s.queue = []

/- ### Part 6: pool scheduler lemmas and the pool-level claims. -/

theorem poolFailures_cons (e : PoolEv E) (tr : List (PoolEv E)) :
    poolFailures (e :: tr) = poolFailures [e] ++ poolFailures tr := by
  cases e <;> simp [poolFailures]

theorem poolNext_inv {size : ℕ} {fl : List E} {s : PoolState E}
    (h0 : 0 ≤ s.active) (h1 : s.active ≤ (size : ℤ)) (h2 : s.errors = fl)
    (h3 : s.settled = none) (h4 : s.done = true → 0 < s.active) :
    PoolInv size fl (poolNext size s) := by
  unfold poolNext PoolInv
  by_cases hc : s.done = false ∧ s.active < (size : ℤ)
  · rw [if_pos hc]
    refine ⟨by simp, by simp, by simpa using h2, by simp [h3], by simp [hc.1], by simp [h3]⟩
  · rw [if_neg hc]
    refine ⟨h0, h1, h2, by simp [h3], ?_, by simp [h3]⟩
    intro hd hz
    have := h4 hd
    omega

theorem poolInv_init (size : ℕ) : PoolInv (E := E) size [] (poolInit size) := by
  unfold poolInit
  exact poolNext_inv le_rfl (by simp) rfl rfl (by intro h; simp at h)

theorem poolInv_step {size : ℕ} {fl : List E} {s s2 : PoolState E} {e : PoolEv E}
    (hs : PoolInv size fl s) (h : poolStep size s e = some s2) :
    PoolInv size (fl ++ poolFailures [e]) s2 := by
  obtain ⟨h0, h1, h2, h3, h4, h5⟩ := hs
  by_cases ha : s.active ≤ 0
  · simp [poolStep, ha] at h
  · have hact : 0 < s.active := not_le.mp ha
    have hsetnone : s.settled = none := by
      cases hx : s.settled with
      | none => rfl
      | some r =>
        have h00 := h3 (by rw [hx]; rfl)
        omega
    cases e with
    | ok more =>
      simp only [poolStep, if_neg ha] at h
      by_cases hc : s.active - 1 = 0 ∧ (s.done = true ∨ more = false)
      · rw [if_pos hc] at h
        injection h with h
        subst h
        unfold PoolInv
        dsimp only
        refine ⟨by omega, by omega, by simpa [poolFailures] using h2,
          fun _ => hc.1, fun _ _ => rfl, ?_⟩
        intro r hr
        injection hr with hr
        subst hr
        unfold poolSettleVal
        cases s.errors with
        | nil => exact Or.inl ⟨rfl, rfl⟩
        | cons a l => exact Or.inr ⟨by simp, rfl⟩
      · rw [if_neg hc] at h
        by_cases hm : more = true
        · rw [if_pos hm] at h
          injection h with h
          subst h
          have hfl : fl ++ poolFailures [PoolEv.ok more] = fl := by simp [poolFailures]
          rw [hfl]
          refine poolNext_inv (by dsimp only; omega) (by dsimp only; omega)
            (by dsimp only; exact h2) (by dsimp only; exact hsetnone) ?_
          intro hd
          dsimp only at hd ⊢
          rcases eq_or_lt_of_le (by omega : (0 : ℤ) ≤ s.active - 1) with hz | hz
          · exact absurd ⟨hz.symm, Or.inl hd⟩ hc
          · exact hz
        · rw [if_neg hm] at h
          injection h with h
          subst h
          unfold PoolInv
          dsimp only
          refine ⟨by omega, by omega, by simpa [poolFailures] using h2,
            by simp [hsetnone], ?_, by simp [hsetnone]⟩
          intro _ hz
          have hmf : more = false := by
            cases more
            · rfl
            · exact absurd rfl hm
          exact absurd ⟨hz, Or.inr hmf⟩ hc
    | fail err =>
      simp only [poolStep, if_neg ha] at h
      injection h with h
      subst h
      unfold PoolInv
      dsimp only
      refine ⟨by omega, by omega, by simp [poolFailures, h2], ?_, ?_, ?_⟩
      · intro hset
        by_cases hz : s.active - 1 = 0
        · exact hz
        · rw [if_neg hz, hsetnone] at hset
          simp at hset
      · intro _ hz
        rw [if_pos hz]
        rfl
      · intro r hr
        by_cases hz : s.active - 1 = 0
        · rw [if_pos hz] at hr
          injection hr with hr
          subst hr
          exact Or.inr ⟨by simp, rfl⟩
        · rw [if_neg hz, hsetnone] at hr
          exact absurd hr (by simp)

theorem poolStepsFrom_inv :
    ∀ (tr : List (PoolEv E)) {size : ℕ} {fl : List E} {s s2 : PoolState E},
      PoolInv size fl s → poolStepsFrom size s tr = some s2 →
      PoolInv size (fl ++ poolFailures tr) s2 := by
  intro tr
  induction tr with
  | nil =>
    intro size fl s s2 hs h
    simp only [poolStepsFrom, List.foldlM_nil, Option.pure_def, Option.some.injEq] at h
    subst h
    simpa [poolFailures] using hs
  | cons e tr ih =>
    intro size fl s s2 hs h
    simp only [poolStepsFrom, List.foldlM_cons] at h
    cases hstep : poolStep size s e with
    | none => rw [hstep] at h; simp at h
    | some s1 =>
      rw [hstep] at h
      have h1 := poolInv_step hs hstep
      have h2 := ih h1 h
      rw [poolFailures_cons, ← List.append_assoc]
      exact h2

theorem poolRun_inv {size : ℕ} {tr : List (PoolEv E)} {s : PoolState E}
    (h : poolRun size tr = some s) : PoolInv size (poolFailures tr) s := by
  have h2 := poolStepsFrom_inv tr (poolInv_init size) h
  simpa using h2

theorem poolStep_done_frozen {size : ℕ} {s s2 : PoolState E} {e : PoolEv E}
    (hd : s.done = true) (h : poolStep size s e = some s2) :
    s2.launched = s.launched ∧ s2.done = true := by
  by_cases ha : s.active ≤ 0
  · simp [poolStep, ha] at h
  · cases e with
    | ok more =>
      simp only [poolStep, if_neg ha] at h
      by_cases hc : s.active - 1 = 0 ∧ (s.done = true ∨ more = false)
      · rw [if_pos hc] at h
        injection h with h
        subst h
        exact ⟨rfl, hd⟩
      · rw [if_neg hc] at h
        by_cases hm : more = true
        · rw [if_pos hm] at h
          injection h with h
          subst h
          unfold poolNext
          rw [if_neg (by simp [hd])]
          exact ⟨rfl, hd⟩
        · rw [if_neg hm] at h
          injection h with h
          subst h
          exact ⟨rfl, rfl⟩
    | fail err =>
      simp only [poolStep, if_neg ha] at h
      injection h with h
      subst h
      exact ⟨rfl, rfl⟩

theorem poolStepsFrom_done_frozen :
    ∀ (tr : List (PoolEv E)) {size : ℕ} {s s2 : PoolState E},
      s.done = true → poolStepsFrom size s tr = some s2 →
      s2.launched = s.launched ∧ s2.done = true := by
  intro tr
  induction tr with
  | nil =>
    intro size s s2 hd h
    simp only [poolStepsFrom, List.foldlM_nil, Option.pure_def, Option.some.injEq] at h
    subst h
    exact ⟨rfl, hd⟩
  | cons e tr ih =>
    intro size s s2 hd h
    simp only [poolStepsFrom, List.foldlM_cons] at h
    cases hstep : poolStep size s e with
    | none => rw [hstep] at h; simp at h
    | some s1 =>
      rw [hstep] at h
      obtain ⟨hl1, hd1⟩ := poolStep_done_frozen hd hstep
      obtain ⟨hl2, hd2⟩ := ih hd1 h
      exact ⟨hl2.trans hl1, hd2⟩

/-- C1: for every pool size and every (adversarially scheduled) producer,
at every reachable instant of a run of `pool(size, producer)` the number
of producer invocations currently in flight — the `active` counter — is
at least 0 and never exceeds `size`. -/
theorem pool_activeCount_bounded (size : ℕ) (tr : List (PoolEv E)) (s : PoolState E)
    (h : poolRun size tr = some s) : 0 ≤ s.active ∧ s.active ≤ (size : ℤ) :=
  ⟨(poolRun_inv h).1, (poolRun_inv h).2.1⟩

theorem pool_activeCount_bounded_witness :
    poolRun (E := ℕ) 3 [PoolEv.ok true] =
      some { active := 3, done := false, errors := [], settled := none, launched := 4 } ∧
    (0 ≤ (3 : ℤ) ∧ (3 : ℤ) ≤ ((3 : ℕ) : ℤ)) :=
  ⟨by decide,
    pool_activeCount_bounded (E := ℕ) 3 [PoolEv.ok true]
      { active := 3, done := false, errors := [], settled := none, launched := 4 } (by decide)⟩

/-- C2: once draining has begun (the `done` flag is set because some
producer invocation resolved `false` with others still in flight, or
failed), no new producer invocation is ever started — the launch counter
stays frozen along every continuation of the run; the run never settles
while an invocation is in flight (settlement implies `active = 0`); a
settled run is terminal, so the resolve/reject event cannot fire a second
time; and when draining completes (`done` with `active = 0`) the terminal
event has fired. -/
theorem pool_draining_settlement (size : ℕ) (tr : List (PoolEv E)) (s : PoolState E)
    (h : poolRun size tr = some s) :
    (s.done = true → ∀ tr2 s2, poolStepsFrom size s tr2 = some s2 → s2.launched = s.launched) ∧
    (s.settled.isSome = true → s.active = 0) ∧
    (s.settled.isSome = true → ∀ e, poolStep size s e = none) ∧
    (s.done = true → s.active = 0 → s.settled.isSome = true) := by
  have hi := poolRun_inv h
  refine ⟨?_, hi.2.2.2.1, ?_, hi.2.2.2.2.1⟩
  · intro hd tr2 s2 h2
    exact (poolStepsFrom_done_frozen tr2 hd h2).1
  · intro hset e
    have hz : s.active = 0 := hi.2.2.2.1 hset
    simp [poolStep, hz]

theorem pool_draining_settlement_witness :
    poolRun (E := ℕ) 2 [PoolEv.ok false, PoolEv.ok true] =
      some { active := 0, done := true, errors := [], settled := some PoolRes.resolved,
             launched := 2 } ∧
    poolStep 2
      { active := 0, done := true, errors := ([] : List ℕ), settled := some PoolRes.resolved,
        launched := 2 } (PoolEv.ok true) = none :=
  ⟨by decide,
    (pool_draining_settlement (E := ℕ) 2 [PoolEv.ok false, PoolEv.ok true]
      { active := 0, done := true, errors := [], settled := some PoolRes.resolved, launched := 2 }
      (by decide)).2.2.1 rfl (PoolEv.ok true)⟩

/-- C3: a settled pool run rejects with the aggregate error carrying the
ordered list of all captured producer failures exactly when at least one
producer invocation failed; with no failure it resolves successfully,
in particular when the `false` stop signal arrived while other previously
launched invocations were still in flight. -/
theorem pool_reject_iff_failures (size : ℕ) (tr : List (PoolEv E)) (s : PoolState E)
    (r : PoolRes E) (h : poolRun size tr = some s) (hr : s.settled = some r) :
    (poolFailures tr = [] ∧ r = PoolRes.resolved) ∨
    (poolFailures tr ≠ [] ∧ r = PoolRes.rejected (poolFailures tr)) := by
  have hi := poolRun_inv h
  have herr : s.errors = poolFailures tr := hi.2.2.1
  have h6 := hi.2.2.2.2.2 r hr
  rw [herr] at h6
  exact h6

theorem pool_reject_iff_failures_witness :
    poolRun (E := ℕ) 1 [PoolEv.fail 7] =
      some { active := 0, done := true, errors := [7],
             settled := some (PoolRes.rejected [7]), launched := 1 } ∧
    ((poolFailures [PoolEv.fail (7 : ℕ)] = [] ∧ PoolRes.rejected [7] = PoolRes.resolved) ∨
      (poolFailures [PoolEv.fail (7 : ℕ)] ≠ [] ∧
        PoolRes.rejected [7] = PoolRes.rejected (poolFailures [PoolEv.fail (7 : ℕ)]))) :=
  ⟨by decide,
    pool_reject_iff_failures (E := ℕ) 1 [PoolEv.fail 7]
      { active := 0, done := true, errors := [7], settled := some (PoolRes.rejected [7]),
        launched := 1 }
      (PoolRes.rejected [7]) (by decide) (by decide)⟩

/- ### Part 7: combinator machine lemmas. -/

theorem runC_induction {sp : CombSpec α β σ ι} {size : ℕ} {xs : List α}
    (P : CState α β σ ι → Prop) (hstart : P (startC sp size xs))
    (hstep : ∀ s k s2, P s → complete sp size s k = some s2 → P s2) :
    ∀ tr s, runC sp size xs tr = some s → P s := by
  have key : ∀ (tr : List ℕ) (s0 s : CState α β σ ι), P s0 →
      tr.foldlM (complete sp size) s0 = some s → P s := by
    intro tr
    induction tr with
    | nil =>
      intro s0 s h0 h
      simp only [List.foldlM_nil, Option.pure_def, Option.some.injEq] at h
      subst h
      exact h0
    | cons k tr ih =>
      intro s0 s h0 h
      simp only [List.foldlM_cons] at h
      cases hc : complete sp size s0 k with
      | none => rw [hc] at h; simp at h
      | some s1 =>
        rw [hc] at h
        exact ih s1 s (hstep s0 k s1 h0 hc) h
  exact fun tr s h => key tr _ s hstart h

theorem everyStuck_step0 (x : α) (s : CState α Bool Bool (α × ℕ × List α))
    (hq : s.queue = []) (ha : s.acc = true) (hp : s.pending = [some (0, x, false)])
    (hd : s.done = false) :
    complete (everySpec (fun _ _ _ => false)) 1 s 0 =
      some { s with acc := false, pending := [Option.none] } := by
  obtain ⟨o, q, i, a, pnd, d, st, lg⟩ := s
  simp only at hq ha hp hd
  subst hq ha hp hd
  rfl

theorem everyStuck_stepN (s : CState α Bool Bool (α × ℕ × List α))
    (hq : s.queue = []) (ha : s.acc = false) (hp : s.pending = [Option.none])
    (hd : s.done = false) :
    complete (everySpec (fun _ _ _ => false)) 1 s 0 =
      some { s with pending := [Option.none] } := by
  obtain ⟨o, q, i, a, pnd, d, st, lg⟩ := s
  simp only at hq ha hp hd
  subst hq ha hp hd
  rfl

theorem everyStuck_inv (x : α) :
    ∀ tr s, runC (everySpec (fun _ _ _ => false)) 1 [x] tr = some s →
      s.settled = false ∧ s.done = false ∧ s.queue = [] ∧
        ((s.pending = [some (0, x, false)] ∧ s.acc = true) ∨
          (s.pending = [Option.none] ∧ s.acc = false)) := by
  apply runC_induction
  · exact ⟨rfl, rfl, rfl, Or.inl ⟨rfl, rfl⟩⟩
  · intro s k s2 hP h
    obtain ⟨hst, hd, hq, hcase⟩ := hP
    rcases hcase with ⟨hp, ha⟩ | ⟨hp, ha⟩
    · cases k with
      | zero =>
        rw [everyStuck_step0 x s hq ha hp hd] at h
        injection h with h
        subst h
        exact ⟨hst, hd, hq, Or.inr ⟨rfl, rfl⟩⟩
      | succ n =>
        simp [complete, hp] at h
    · cases k with
      | zero =>
        rw [everyStuck_stepN s hq ha hp hd] at h
        injection h with h
        subst h
        exact ⟨hst, hd, hq, Or.inr ⟨rfl, ha⟩⟩
      | succ n =>
        simp [complete, hp] at h

theorem someStuck_step0 (x : α) (s : CState α Bool Bool (α × ℕ × List α))
    (hq : s.queue = []) (ha : s.acc = false) (hp : s.pending = [some (0, x, true)])
    (hd : s.done = false) :
    complete (someSpec (fun _ _ _ => true)) 1 s 0 =
      some { s with acc := true, pending := [Option.none] } := by
  obtain ⟨o, q, i, a, pnd, d, st, lg⟩ := s
  simp only at hq ha hp hd
  subst hq ha hp hd
  rfl

theorem someStuck_stepN (s : CState α Bool Bool (α × ℕ × List α))
    (hq : s.queue = []) (ha : s.acc = true) (hp : s.pending = [Option.none])
    (hd : s.done = false) :
    complete (someSpec (fun _ _ _ => true)) 1 s 0 =
      some { s with pending := [Option.none] } := by
  obtain ⟨o, q, i, a, pnd, d, st, lg⟩ := s
  simp only at hq ha hp hd
  subst hq ha hp hd
  rfl

theorem someStuck_inv (x : α) :
    ∀ tr s, runC (someSpec (fun _ _ _ => true)) 1 [x] tr = some s →
      s.settled = false ∧ s.done = false ∧ s.queue = [] ∧
        ((s.pending = [some (0, x, true)] ∧ s.acc = false) ∨
          (s.pending = [Option.none] ∧ s.acc = true)) := by
  apply runC_induction
  · exact ⟨rfl, rfl, rfl, Or.inl ⟨rfl, rfl⟩⟩
  · intro s k s2 hP h
    obtain ⟨hst, hd, hq, hcase⟩ := hP
    rcases hcase with ⟨hp, ha⟩ | ⟨hp, ha⟩
    · cases k with
      | zero =>
        rw [someStuck_step0 x s hq ha hp hd] at h
        injection h with h
        subst h
        exact ⟨hst, hd, hq, Or.inr ⟨rfl, rfl⟩⟩
      | succ n =>
        simp [complete, hp] at h
    · cases k with
      | zero =>
        rw [someStuck_stepN s hq ha hp hd] at h
        injection h with h
        subst h
        exact ⟨hst, hd, hq, Or.inr ⟨rfl, ha⟩⟩
      | succ n =>
        simp [complete, hp] at h

/-- C4: the claim states that `every(list, action)` always settles and
resolves to the boolean AND of the callback results. The code disagrees:
its producer returns `!result || list.length > 0`, so as soon as one
callback resolves `false` every producer completion reports that more
work remains and the pool keeps launching no-op invocations forever. On
the one-element input below with the constantly-false callback, no
completion schedule of any length ever settles the run. -/
theorem every_false_never_settles (x : α) (tr : List ℕ) :
    everyJs (some [x]) (fun _ _ _ => false) none 0 tr = none := by
  show (runSettled (everySpec (fun _ _ _ => false)) 1 [x] tr).map
      (fun s => (s.acc, s.log)) = none
  unfold runSettled
  cases hr : runC (everySpec (fun _ _ _ => false)) 1 [x] tr with
  | none => rfl
  | some s =>
    have hst := (everyStuck_inv x tr s hr).1
    simp [hst]

/-- C5: the claim states that `some(list, action)` always settles and
resolves to the boolean OR of the callback results. The code disagrees:
its producer returns `result || list.length > 0`, so as soon as one
callback resolves `true` every producer completion reports that more work
remains and the pool keeps launching no-op invocations forever. On the
one-element input below with the constantly-true callback, no completion
schedule of any length ever settles the run. -/
theorem some_true_never_settles (x : α) (tr : List ℕ) :
    someJs (some [x]) (fun _ _ _ => true) none 0 tr = none := by
  show (runSettled (someSpec (fun _ _ _ => true)) 1 [x] tr).map
      (fun s => (s.acc, s.log)) = none
  unfold runSettled
  cases hr : runC (someSpec (fun _ _ _ => true)) 1 [x] tr with
  | none => rfl
  | some s =>
    have hst := (someStuck_inv x tr s hr).1
    simp [hst]

/-- C6: the claim states that `reduce` yields the sequential left fold for
every concurrency limit at least 1, independently of the limit. The code
disagrees: each producer invocation reads the shared accumulator in its
synchronous prefix but writes it only after its callback settles, so with
concurrency 2 over `[1,2,3,4]` two claims read the same accumulator value
and one addition is lost. The settled run below (claims and completions
in launch order) yields 6 while the sequential left fold yields 10. -/
theorem reduce_concurrent_not_left_fold :
    (reduceJs (some [1, 2, 3, 4]) (fun acc x _ _ => acc + x) (0 : ℕ) (some 2) 0
      [0, 0, 0, 0]).map Prod.fst = some 6 ∧
    List.foldl (fun acc x => acc + x) (0 : ℕ) [1, 2, 3, 4] = 10 :=
  ⟨by decide, by decide⟩

/-- C8: the claim states that `filter` passes each element's original
0-based position as the callback's index argument. The code disagrees:
the producer runs `var j = i++; var value = clone.shift(); ...
action(value, i, clone)`, passing the already-incremented counter `i`,
i.e. the original position plus one. In the settled run below over a
one-element list, the only callback invocation receives index 1 for the
element at original position 0 (the invocation log records the exact
arguments passed to the callback). -/
theorem filter_passes_shifted_index :
    (filterJs (γ := ℕ) (some [some 5]) (fun _ _ _ => true) none 0 [0]).map Prod.snd =
      some [(some 5, 1, [])] := by decide

/-- C9: every combinator (`each`, `invoke`, `map`, `filter`, `every`,
`some`, `reduce`) treats a null/undefined input collection and an empty
input collection as an immediate no-op success: the callback is never
invoked (the invocation log is empty) and the combinator resolves with
its empty or default result (void, empty list, `true`, `false`, or the
seed accumulator), for every callback, concurrency option, module-level
default, and completion schedule. -/
theorem combinators_empty_input_noop (α β σ γ : Type) (f : α → β)
    (g : α → ℕ → List α → β) (p : α → ℕ → List α → Bool)
    (pf : Option γ → ℕ → List (Option γ) → Bool) (rf : σ → α → ℕ → List α → σ)
    (seed : σ) (optConc : Option ℕ) (globalConc : ℕ) (tr : List ℕ) :
    eachJs (none : Option (List α)) f optConc globalConc tr = some ((), []) ∧
    eachJs (some ([] : List α)) f optConc globalConc tr = some ((), []) ∧
    invokeJs (none : Option (List α)) optConc globalConc tr = some ((), []) ∧
    invokeJs (some ([] : List α)) optConc globalConc tr = some ((), []) ∧
    mapJs (none : Option (List α)) g optConc globalConc tr = some ([], []) ∧
    mapJs (some ([] : List α)) g optConc globalConc tr = some ([], []) ∧
    filterJs (γ := γ) none pf optConc globalConc tr = some ([], []) ∧
    filterJs (γ := γ) (some []) pf optConc globalConc tr = some ([], []) ∧
    everyJs (none : Option (List α)) p optConc globalConc tr = some (true, []) ∧
    everyJs (some ([] : List α)) p optConc globalConc tr = some (true, []) ∧
    someJs (none : Option (List α)) p optConc globalConc tr = some (false, []) ∧
    someJs (some ([] : List α)) p optConc globalConc tr = some (false, []) ∧
    reduceJs (none : Option (List α)) rf seed optConc globalConc tr = some (seed, []) ∧
    reduceJs (some ([] : List α)) rf seed optConc globalConc tr = some (seed, []) :=
  ⟨rfl, rfl, rfl, rfl, rfl, rfl, rfl, rfl, rfl, rfl, rfl, rfl, rfl, rfl⟩

/- ### Part 8: the slot-machine invariant (shared by map and filter). -/

theorem launch1_flags (sp : CombSpec α β σ ι) (s : CState α β σ ι) :
    (launch1 sp s).settled = s.settled ∧ (launch1 sp s).done = s.done := by
  unfold launch1
  cases s.queue with
  | nil => exact ⟨rfl, rfl⟩
  | cons v q => exact ⟨rfl, rfl⟩

theorem slotInv_initC [Inhabited α] {sp : CombSpec α β (ℕ → Option δ) ι} {xs : List α}
    {resFn : ℕ → β} {keep : ℕ → Bool} {outv : ℕ → δ}
    (hok : SlotOk sp xs resFn keep outv) :
    SlotInv xs resFn keep outv (initC sp xs) := by
  refine ⟨rfl, (List.drop_zero xs).symm, Nat.zero_le _, ?_, ?_, ?_, ?_, ?_, ?_, ?_, ?_⟩
  · intro c hc; simp [claimsOf, initC] at hc
  · intro c hc; simp [claimsOf, initC] at hc
  · intro c hc; simp [claimsOf, initC] at hc
  · simp [claimIdxs, claimsOf, initC]
  · intro j
    show (sp.init xs) j = _
    rw [hok.init_eq]
    simp [initC, claimIdxs, claimsOf]
  · intro h; simp [initC] at h
  · intro h; simp [initC] at h
  · intro h; simp [initC] at h

theorem slotInv_launch1 [Inhabited α] {sp : CombSpec α β (ℕ → Option δ) ι} {xs : List α}
    {resFn : ℕ → β} {keep : ℕ → Bool} {outv : ℕ → δ}
    (hok : SlotOk sp xs resFn keep outv) {s : CState α β (ℕ → Option δ) ι}
    (hI : SlotInv xs resFn keep outv s) (hst : s.settled = false) :
    SlotInv xs resFn keep outv (launch1 sp s) := by
  cases hqe : s.queue with
  | nil =>
    have hred : launch1 sp s = { s with pending := s.pending ++ [none] } := by
      unfold launch1
      rw [hqe]
    rw [hred]
    have hcl : claimsOf { s with pending := s.pending ++ [Option.none] } = claimsOf s := by
      show (s.pending ++ [Option.none]).filterMap id = s.pending.filterMap id
      simp
    have hci : claimIdxs { s with pending := s.pending ++ [Option.none] } = claimIdxs s := by
      unfold claimIdxs
      rw [hcl]
    refine ⟨hI.orig_eq, hI.queue_eq, hI.idx_le, ?_, ?_, ?_, ?_, ?_, hI.done_queue, ?_, ?_⟩
    · intro c hc; rw [hcl] at hc; exact hI.claims_lt c hc
    · intro c hc; rw [hcl] at hc; exact hI.claims_val c hc
    · intro c hc; rw [hcl] at hc; exact hI.claims_res c hc
    · rw [hci]; exact hI.claims_nodup
    · intro j; rw [hci]; exact hI.slots j
    · intro hc2; exact absurd hc2 (by simp [hst])
    · intro hc2; exact absurd hc2 (by simp [hst])
  | cons v q =>
    have hvq : xs.drop s.idx = v :: q := by rw [← hI.queue_eq]; exact hqe
    have hlt : s.idx < xs.length := by
      by_contra hge
      rw [List.drop_eq_nil_of_le (Nat.le_of_not_lt hge)] at hvq
      simp at hvq
    have hg2 : xs.drop s.idx = xs.getD s.idx default :: xs.drop (s.idx + 1) := by
      rw [List.drop_eq_getElem_cons hlt]
      rw [List.getD_eq_getElem?_getD, List.getElem?_eq_getElem hlt]
      rfl
    have hv : v = xs.getD s.idx default := by
      have h3 := hvq.symm.trans hg2
      exact (List.cons.injEq _ _ _ _ ▸ h3).1
    have hq2 : q = xs.drop (s.idx + 1) := by
      have h3 := hvq.symm.trans hg2
      exact (List.cons.injEq _ _ _ _ ▸ h3).2
    have hres : (sp.onClaim s.acc s.idx v q).1 = resFn s.idx := by
      rw [hv, hq2]
      exact hok.claim_res s.acc s.idx hlt
    have hred : launch1 sp s =
        { s with queue := q, idx := s.idx + 1,
                 pending := s.pending ++ [some (s.idx, v, (sp.onClaim s.acc s.idx v q).1)],
                 log := s.log ++ [(sp.onClaim s.acc s.idx v q).2] } := by
      unfold launch1
      rw [hqe]
    rw [hred]
    have hnotin : s.idx ∉ claimIdxs s := by
      intro hin
      obtain ⟨c, hc, hceq⟩ := List.mem_map.mp hin
      have := hI.claims_lt c hc
      omega
    have hcl : claimsOf
        { s with queue := q, idx := s.idx + 1,
                 pending := s.pending ++ [some (s.idx, v, (sp.onClaim s.acc s.idx v q).1)],
                 log := s.log ++ [(sp.onClaim s.acc s.idx v q).2] }
        = claimsOf s ++ [(s.idx, v, (sp.onClaim s.acc s.idx v q).1)] := by
      show (s.pending ++ [some (s.idx, v, (sp.onClaim s.acc s.idx v q).1)]).filterMap id
        = s.pending.filterMap id ++ [(s.idx, v, (sp.onClaim s.acc s.idx v q).1)]
      simp
    have hci : claimIdxs
        { s with queue := q, idx := s.idx + 1,
                 pending := s.pending ++ [some (s.idx, v, (sp.onClaim s.acc s.idx v q).1)],
                 log := s.log ++ [(sp.onClaim s.acc s.idx v q).2] }
        = claimIdxs s ++ [s.idx] := by
      unfold claimIdxs
      rw [hcl]
      simp
    refine ⟨hI.orig_eq, hq2, by show s.idx + 1 ≤ xs.length; omega, ?_, ?_, ?_, ?_, ?_, ?_, ?_, ?_⟩
    · intro c hc
      rw [hcl] at hc
      rcases List.mem_append.mp hc with hco | hcn
      · have := hI.claims_lt c hco
        show c.1 < s.idx + 1
        omega
      · rw [List.mem_singleton.mp hcn]
        show s.idx < s.idx + 1
        omega
    · intro c hc
      rw [hcl] at hc
      rcases List.mem_append.mp hc with hco | hcn
      · exact hI.claims_val c hco
      · rw [List.mem_singleton.mp hcn]
        exact hv
    · intro c hc
      rw [hcl] at hc
      rcases List.mem_append.mp hc with hco | hcn
      · exact hI.claims_res c hco
      · rw [List.mem_singleton.mp hcn]
        exact hres
    · rw [hci]
      simp [List.nodup_append, hI.claims_nodup, hnotin]
    · intro j
      rw [hci]
      show s.acc j = _
      rw [hI.slots j]
      by_cases hj : j = s.idx
      · subst hj
        simp [List.mem_append, hnotin]
      · have hiff : (j < s.idx + 1) ↔ (j < s.idx) := by omega
        simp [List.mem_append, hj, hiff]
    · intro hdn
      have hqn := hI.done_queue hdn
      rw [hqe] at hqn
      simp at hqn
    · intro hc2; exact absurd hc2 (by simp [hst])
    · intro hc2; exact absurd hc2 (by simp [hst])

theorem slotInv_refillN [Inhabited α] {sp : CombSpec α β (ℕ → Option δ) ι} {xs : List α}
    {resFn : ℕ → β} {keep : ℕ → Bool} {outv : ℕ → δ}
    (hok : SlotOk sp xs resFn keep outv) :
    ∀ (m : ℕ) (s : CState α β (ℕ → Option δ) ι),
      SlotInv xs resFn keep outv s → s.settled = false →
      SlotInv xs resFn keep outv (refillN sp m s) ∧ (refillN sp m s).settled = false := by
  intro m
  induction m with
  | zero => intro s hI hst; exact ⟨hI, hst⟩
  | succ k ih =>
    intro s hI hst
    have h1 := slotInv_launch1 hok hI hst
    have hfl := (launch1_flags sp s).1
    exact ih (launch1 sp s) h1 (hfl.trans hst)

theorem slotInv_refill [Inhabited α] {sp : CombSpec α β (ℕ → Option δ) ι} {xs : List α}
    {resFn : ℕ → β} {keep : ℕ → Bool} {outv : ℕ → δ}
    (hok : SlotOk sp xs resFn keep outv) {size : ℕ} {s : CState α β (ℕ → Option δ) ι}
    (hI : SlotInv xs resFn keep outv s) (hst : s.settled = false) :
    SlotInv xs resFn keep outv (refill sp size s) ∧ (refill sp size s).settled = false := by
  unfold refill
  by_cases hd : s.done = true
  · rw [if_pos hd]
    exact ⟨hI, hst⟩
  · rw [if_neg hd]
    exact slotInv_refillN hok _ s hI hst

theorem slotInv_settleCheck [Inhabited α] {sp : CombSpec α β (ℕ → Option δ) ι} {xs : List α}
    {resFn : ℕ → β} {keep : ℕ → Bool} {outv : ℕ → δ}
    (hok : SlotOk sp xs resFn keep outv) {size : ℕ} {s : CState α β (ℕ → Option δ) ι}
    {m : Bool} (hI : SlotInv xs resFn keep outv s) (hst : s.settled = false)
    (hm : m = false → s.queue = []) :
    SlotInv xs resFn keep outv (settleCheck sp size s m) := by
  unfold settleCheck
  by_cases hc : s.pending.length = 0 ∧ (s.done = true ∨ m = false)
  · rw [if_pos hc]
    have hpe : s.pending = [] := List.length_eq_zero.mp hc.1
    have hqe : s.queue = [] := by
      rcases hc.2 with hd | hmf
      · exact hI.done_queue hd
      · exact hm hmf
    exact ⟨hI.orig_eq, hI.queue_eq, hI.idx_le, hI.claims_lt, hI.claims_val, hI.claims_res,
      hI.claims_nodup, hI.slots, hI.done_queue, fun _ => hpe, fun _ => hqe⟩
  · rw [if_neg hc]
    by_cases hm2 : m = true
    · rw [if_pos hm2]
      exact (slotInv_refill hok hI hst).1
    · rw [if_neg hm2]
      have hqe : s.queue = [] := by
        apply hm
        cases m
        · rfl
        · exact absurd rfl hm2
      exact ⟨hI.orig_eq, hI.queue_eq, hI.idx_le, hI.claims_lt, hI.claims_val, hI.claims_res,
        hI.claims_nodup, hI.slots, fun _ => hqe,
        fun hc2 => absurd hc2 (by simp [hst]), fun hc2 => absurd hc2 (by simp [hst])⟩

theorem slotInv_complete [Inhabited α] {sp : CombSpec α β (ℕ → Option δ) ι} {xs : List α}
    {resFn : ℕ → β} {keep : ℕ → Bool} {outv : ℕ → δ}
    (hok : SlotOk sp xs resFn keep outv) {size : ℕ}
    {s s2 : CState α β (ℕ → Option δ) ι} {k : ℕ}
    (hI : SlotInv xs resFn keep outv s)
    (h : complete sp size s k = some s2) : SlotInv xs resFn keep outv s2 := by
  cases hg : s.pending.get? k with
  | none =>
    unfold complete at h
    rw [hg] at h
    simp at h
  | some item =>
    unfold complete at h
    rw [hg] at h
    have hst : s.settled = false := by
      cases hsv : s.settled
      · rfl
      · rw [hI.settled_pending hsv] at hg
        simp at hg
    have hg2 : s.pending[k]? = some item := by
      rw [← List.get?_eq_getElem?]
      exact hg
    obtain ⟨hklen, hkeq⟩ := List.getElem?_eq_some_iff.mp hg2
    have hdecomp : s.pending = s.pending.take k ++ item :: s.pending.drop (k + 1) := by
      conv_lhs => rw [← List.take_append_drop k s.pending]
      rw [List.drop_eq_getElem_cons hklen, hkeq]
    have herase : s.pending.eraseIdx k = s.pending.take k ++ s.pending.drop (k + 1) :=
      List.eraseIdx_eq_take_drop_succ s.pending k
    cases item with
    | none =>
      dsimp only at h
      have hcl2 : claimsOf { s with pending := s.pending.eraseIdx k } = claimsOf s := by
        show (s.pending.eraseIdx k).filterMap id = s.pending.filterMap id
        rw [herase]
        conv_rhs => rw [hdecomp]
        simp
      have hci2 : claimIdxs { s with pending := s.pending.eraseIdx k } = claimIdxs s := by
        unfold claimIdxs
        rw [hcl2]
      have hI1 : SlotInv xs resFn keep outv { s with pending := s.pending.eraseIdx k } := by
        refine ⟨hI.orig_eq, hI.queue_eq, hI.idx_le, ?_, ?_, ?_, ?_, ?_, hI.done_queue, ?_, ?_⟩
        · intro c hc; rw [hcl2] at hc; exact hI.claims_lt c hc
        · intro c hc; rw [hcl2] at hc; exact hI.claims_val c hc
        · intro c hc; rw [hcl2] at hc; exact hI.claims_res c hc
        · rw [hci2]; exact hI.claims_nodup
        · intro j; rw [hci2]; exact hI.slots j
        · intro hc2; exact absurd hc2 (by simp [hst])
        · intro hc2; exact absurd hc2 (by simp [hst])
      injection h with h
      subst h
      exact slotInv_settleCheck hok hI1 hst (hok.more_false _ _)
    | some c =>
      obtain ⟨j, v, r⟩ := c
      dsimp only at h
      have hmem : (j, v, r) ∈ claimsOf s := by
        show (j, v, r) ∈ s.pending.filterMap id
        rw [hdecomp]
        simp
      have hjlt : j < s.idx := hI.claims_lt _ hmem
      have hv : v = xs.getD j default := hI.claims_val _ hmem
      have hr : r = resFn j := hI.claims_res _ hmem
      have hjxs : j < xs.length := lt_of_lt_of_le hjlt hI.idx_le
      have hclaims_eq : claimsOf s =
          (s.pending.take k).filterMap id ++ (j, v, r) ::
            (s.pending.drop (k + 1)).filterMap id := by
        show s.pending.filterMap id = _
        conv_lhs => rw [hdecomp]
        simp
      have hclaims1_eq : claimsOf
          { s with pending := s.pending.eraseIdx k, acc := sp.onComplete s.acc j v r } =
          (s.pending.take k).filterMap id ++ (s.pending.drop (k + 1)).filterMap id := by
        show (s.pending.eraseIdx k).filterMap id = _
        rw [herase]
        simp
      have hidx_eq : claimIdxs s =
          ((s.pending.take k).filterMap id).map (fun c => c.1) ++ j ::
            ((s.pending.drop (k + 1)).filterMap id).map (fun c => c.1) := by
        unfold claimIdxs
        rw [hclaims_eq]
        simp
      have hidx1_eq : claimIdxs
          { s with pending := s.pending.eraseIdx k, acc := sp.onComplete s.acc j v r } =
          ((s.pending.take k).filterMap id).map (fun c => c.1) ++
            ((s.pending.drop (k + 1)).filterMap id).map (fun c => c.1) := by
        unfold claimIdxs
        rw [hclaims1_eq]
        simp
      have hnodup_mid := hI.claims_nodup
      rw [hidx_eq] at hnodup_mid
      have hmid := List.nodup_middle.mp hnodup_mid
      have hjnot : j ∉ ((s.pending.take k).filterMap id).map (fun c => c.1) ++
          ((s.pending.drop (k + 1)).filterMap id).map (fun c => c.1) :=
        (List.nodup_cons.mp hmid).1
      have hnd1 : (claimIdxs
          { s with pending := s.pending.eraseIdx k, acc := sp.onComplete s.acc j v r }).Nodup := by
        rw [hidx1_eq]
        exact (List.nodup_cons.mp hmid).2
      have hacc2 : sp.onComplete s.acc j v r =
          fun i => if i = j then (if keep j = true then some (outv j) else s.acc j)
            else s.acc i := by
        rw [hv, hr]
        exact hok.comp_eq s.acc j hjxs
      have hjin : j ∈ claimIdxs s := by
        rw [hidx_eq]
        simp
      have haccj : s.acc j = none := by
        rw [hI.slots j]
        simp [hjin]
      have hImid : SlotInv xs resFn keep outv
          { s with pending := s.pending.eraseIdx k, acc := sp.onComplete s.acc j v r } := by
        have hsub : ∀ c, c ∈ claimsOf
            { s with pending := s.pending.eraseIdx k, acc := sp.onComplete s.acc j v r } →
            c ∈ claimsOf s := by
          intro c hc
          have hc2 : c ∈ (s.pending.eraseIdx k).filterMap id := hc
          exact ((List.eraseIdx_sublist s.pending k).filterMap id).subset hc2
        refine ⟨hI.orig_eq, hI.queue_eq, hI.idx_le, ?_, ?_, ?_, hnd1, ?_, hI.done_queue, ?_, ?_⟩
        · intro c hc; exact hI.claims_lt c (hsub c hc)
        · intro c hc; exact hI.claims_val c (hsub c hc)
        · intro c hc; exact hI.claims_res c (hsub c hc)
        · intro i
          have hgoalL : (sp.onComplete s.acc j v r) i =
              (if i = j then (if keep j = true then some (outv j) else s.acc j)
                else s.acc i) := by
            rw [hacc2]
          show (sp.onComplete s.acc j v r) i = _
          rw [hgoalL]
          have hjnot1 : j ∉ claimIdxs { s with pending := s.pending.eraseIdx k, acc := sp.onComplete s.acc j v r } := by
            rw [hidx1_eq]
            exact hjnot
          by_cases hij : i = j
          · rw [if_pos hij, hij]
            cases hkeep : keep j with
            | false => simp [haccj]
            | true => simp [hjlt, hjnot1]
          · rw [if_neg hij]
            rw [hI.slots i]
            have hiff : (i ∈ claimIdxs { s with pending := s.pending.eraseIdx k, acc := sp.onComplete s.acc j v r }) ↔ i ∈ claimIdxs s := by
              rw [hidx_eq, hidx1_eq]
              simp [List.mem_append, hij]
            simp only [hiff]
        · intro hc2; exact absurd hc2 (by simp [hst])
        · intro hc2; exact absurd hc2 (by simp [hst])
      injection h with h
      subst h
      exact slotInv_settleCheck hok hImid hst (hok.more_false _ _)

theorem slotInv_run [Inhabited α] {sp : CombSpec α β (ℕ → Option δ) ι} {xs : List α}
    {resFn : ℕ → β} {keep : ℕ → Bool} {outv : ℕ → δ}
    (hok : SlotOk sp xs resFn keep outv) (size : ℕ) :
    ∀ tr s, runC sp size xs tr = some s → SlotInv xs resFn keep outv s := by
  apply runC_induction
  · exact (slotInv_refill hok (slotInv_initC hok) rfl).1
  · intro s k s2 hP h
    exact slotInv_complete hok hP h

theorem slotRun_settled [Inhabited α] {sp : CombSpec α β (ℕ → Option δ) ι} {xs : List α}
    {resFn : ℕ → β} {keep : ℕ → Bool} {outv : ℕ → δ}
    (hok : SlotOk sp xs resFn keep outv) {size : ℕ} {tr : List ℕ}
    {s : CState α β (ℕ → Option δ) ι} (h : runSettled sp size xs tr = some s) :
    s.orig = xs ∧
      (∀ j, s.acc j = if j < xs.length ∧ keep j = true then some (outv j) else none) := by
  unfold runSettled at h
  cases hr : runC sp size xs tr with
  | none => rw [hr] at h; simp at h
  | some s0 =>
    rw [hr] at h
    dsimp only at h
    by_cases hset : s0.settled = true
    · rw [if_pos hset] at h
      injection h with h
      subst h
      have hI := slotInv_run hok size tr s0 hr
      have hpe : s0.pending = [] := hI.settled_pending hset
      have hqe : s0.queue = [] := hI.settled_queue hset
      have hidx : s0.idx = xs.length := by
        have h1 := hI.queue_eq
        rw [hqe] at h1
        have h2 := List.drop_eq_nil_iff.mp h1.symm
        have h3 := hI.idx_le
        omega
      have hclaims : claimIdxs s0 = [] := by
        unfold claimIdxs claimsOf
        rw [hpe]
        rfl
      refine ⟨hI.orig_eq, ?_⟩
      intro j
      rw [hI.slots j, hclaims, hidx]
      simp
    · rw [if_neg hset] at h
      simp at h

theorem slotOk_map [Inhabited α] (f : α → ℕ → List α → β) (xs : List α) :
    SlotOk (mapSpec f) xs (fun j => f (xs.getD j default) j (xs.drop (j + 1)))
      (fun _ => true) (fun j => f (xs.getD j default) j (xs.drop (j + 1))) := by
  refine ⟨rfl, ?_, ?_, ?_⟩
  · intro acc j hj
    rfl
  · intro acc j hj
    funext i
    simp [mapSpec, Function.update_apply]
  · intro acc q h
    simp [mapSpec] at h
    exact h

theorem slotOk_filter (p : Option γ → ℕ → List (Option γ) → Bool) (xs : List (Option γ)) :
    SlotOk (filterSpec p) xs (fun j => p (xs.getD j default) (j + 1) (xs.drop (j + 1)))
      (fun j => p (xs.getD j default) (j + 1) (xs.drop (j + 1)))
      (fun j => xs.getD j default) := by
  refine ⟨rfl, ?_, ?_, ?_⟩
  · intro acc j hj
    rfl
  · intro acc j hj
    funext i
    cases hres : p (xs.getD j default) (j + 1) (xs.drop (j + 1)) with
    | true => simp [filterSpec, Function.update_apply, hres]
    | false =>
      by_cases hij : i = j
      · simp [filterSpec, hres, hij]
      · simp [filterSpec, hres, hij]
  · intro acc q h
    simp [filterSpec] at h
    exact h

theorem filterMap_all_some {w : ℕ → β} {g : ℕ → Option β} :
    ∀ (l : List ℕ), (∀ j ∈ l, g j = some (w j)) → l.filterMap g = l.map w := by
  intro l
  induction l with
  | nil => intro h; rfl
  | cons a l ih =>
    intro h
    rw [List.filterMap_cons, h a (List.mem_cons_self a l), List.map_cons,
      ih (fun j hj => h j (List.mem_cons_of_mem a hj))]

theorem filterMap_filter_isSome {keep : ℕ → Bool} {w : ℕ → Option γ}
    {g : ℕ → Option (Option γ)} :
    ∀ (l : List ℕ), (∀ j ∈ l, g j = if keep j = true then some (w j) else none) →
      (l.filterMap g).filter (fun v => v.isSome) =
        l.filterMap (fun j =>
          if keep j = true ∧ (w j).isSome = true then some (w j) else none) := by
  intro l
  induction l with
  | nil => intro h; rfl
  | cons a l ih =>
    intro h
    have ha := h a (List.mem_cons_self a l)
    have hrest := ih (fun j hj => h j (List.mem_cons_of_mem a hj))
    rw [List.filterMap_cons, List.filterMap_cons, ha]
    cases hk : keep a with
    | false =>
      simp only [Bool.false_eq_true, false_and, if_false]
      exact hrest
    | true =>
      cases hw : w a with
      | none =>
        simp only [Option.isSome_none, Bool.false_eq_true, and_false, if_false, if_true,
          true_and]
        rw [List.filter_cons]
        simp only [hw, Option.isSome_none, Bool.false_eq_true, if_false]
        exact hrest
      | some gv =>
        simp only [hw, Option.isSome_some, and_true, true_and, if_true]
        rw [List.filter_cons]
        simp only [hw, Option.isSome_some, if_true]
        rw [hrest]

/-- C7: for every input list, pure callback, concurrency option, default
concurrency and completion schedule, a settled `map(list, action)` run
resolves to a list of the same length as the input in which position `k`
holds the callback's result on the input element at position `k` (applied
with index `k` and the shared-queue view current at its claim): output
position is keyed by claim order, which equals input order, not by
completion order. -/
theorem map_output_in_input_order [Inhabited α] (xs : List α) (f : α → ℕ → List α → β)
    (optConc : Option ℕ) (globalConc : ℕ) (tr : List ℕ) (out : List β)
    (lg : List (α × ℕ × List α))
    (h : mapJs (some xs) f optConc globalConc tr = some (out, lg)) :
    out.length = xs.length ∧
      out = (List.range xs.length).map
        (fun k => f (xs.getD k default) k (xs.drop (k + 1))) := by
  have hout : out = (List.range xs.length).map
      (fun k => f (xs.getD k default) k (xs.drop (k + 1))) := by
    simp only [mapJs] at h
    by_cases hlen : 0 < xs.length
    · rw [if_pos hlen] at h
      cases hrs : runSettled (mapSpec f) (effSize optConc globalConc xs.length) xs tr with
      | none => rw [hrs] at h; simp at h
      | some s =>
        rw [hrs] at h
        simp only [Option.map_some', Option.some.injEq, Prod.mk.injEq] at h
        obtain ⟨hres, hlog⟩ := h
        obtain ⟨ho, hacc⟩ := slotRun_settled (slotOk_map f xs) hrs
        rw [← hres]
        unfold mapOutput
        rw [ho]
        apply filterMap_all_some
        intro j hj
        rw [hacc j]
        simp [List.mem_range.mp hj]
    · rw [if_neg hlen] at h
      injection h with h
      have hxs : xs.length = 0 := Nat.eq_zero_of_not_pos hlen
      have hout0 : out = [] := ((Prod.mk.injEq _ _ _ _).mp h.symm).1
      rw [hout0, hxs]
      rfl
  constructor
  · rw [hout]
    simp
  · exact hout

theorem map_output_in_input_order_witness :
    mapJs (some [50, 20, 10, 40]) (fun x _ _ => x / 10) none 0 [0, 0, 0, 0] =
      some ([5, 2, 1, 4],
        [(50, 0, [20, 10, 40]), (20, 1, [10, 40]), (10, 2, [40]), (40, 3, [])]) ∧
    (([5, 2, 1, 4] : List ℕ).length = ([50, 20, 10, 40] : List ℕ).length ∧
      ([5, 2, 1, 4] : List ℕ) = (List.range ([50, 20, 10, 40] : List ℕ).length).map
        (fun k => (fun (x : ℕ) (_ : ℕ) (_ : List ℕ) => x / 10)
          (([50, 20, 10, 40] : List ℕ).getD k default) k
          (([50, 20, 10, 40] : List ℕ).drop (k + 1)))) :=
  ⟨by decide,
    map_output_in_input_order [50, 20, 10, 40] (fun x _ _ => x / 10) none 0 [0, 0, 0, 0]
      [5, 2, 1, 4] [(50, 0, [20, 10, 40]), (20, 1, [10, 40]), (10, 2, [40]), (40, 3, [])]
      (by decide)⟩

/-- C10: for every input list of possibly-undefined values, predicate,
concurrency option, default concurrency and completion schedule, a
settled `filter(list, action)` run omits every `undefined` input element
from its output regardless of whether the predicate resolved true for it,
because the output array is compacted with
`result.filter(value => value !== undefined)`: the output contains no
`undefined` value, and equals the original-order list of the defined
elements whose predicate resolved true (the predicate being invoked with
index `j + 1` and the shared-queue view of its claim). -/
theorem filter_drops_undefined_values (xs : List (Option γ))
    (p : Option γ → ℕ → List (Option γ) → Bool) (optConc : Option ℕ) (globalConc : ℕ)
    (tr : List ℕ) (out : List (Option γ)) (lg : List (Option γ × ℕ × List (Option γ)))
    (h : filterJs (some xs) p optConc globalConc tr = some (out, lg)) :
    (∀ v ∈ out, v.isSome = true) ∧
      out = (List.range xs.length).filterMap
        (fun j => if p (xs.getD j none) (j + 1) (xs.drop (j + 1)) = true ∧
            (xs.getD j none).isSome = true then some (xs.getD j none) else none) := by
  have hout : out = (List.range xs.length).filterMap
      (fun j => if p (xs.getD j none) (j + 1) (xs.drop (j + 1)) = true ∧
          (xs.getD j none).isSome = true then some (xs.getD j none) else none) := by
    simp only [filterJs] at h
    by_cases hlen : 0 < xs.length
    · rw [if_pos hlen] at h
      cases hrs : runSettled (filterSpec p) (effSize optConc globalConc xs.length) xs tr with
      | none => rw [hrs] at h; simp at h
      | some s =>
        rw [hrs] at h
        simp only [Option.map_some', Option.some.injEq, Prod.mk.injEq] at h
        obtain ⟨hres, hlog⟩ := h
        obtain ⟨ho, hacc⟩ := slotRun_settled (slotOk_filter p xs) hrs
        rw [← hres]
        unfold filterOutput
        rw [ho]
        apply filterMap_filter_isSome
        intro j hj
        rw [hacc j]
        simp [List.mem_range.mp hj]
    · rw [if_neg hlen] at h
      injection h with h
      have hxs : xs.length = 0 := Nat.eq_zero_of_not_pos hlen
      have hout0 : out = [] := ((Prod.mk.injEq _ _ _ _).mp h.symm).1
      rw [hout0, hxs]
      rfl
  refine ⟨?_, hout⟩
  intro v hv
  rw [hout] at hv
  obtain ⟨j, hj, hjv⟩ := List.mem_filterMap.mp hv
  by_cases hc : p (xs.getD j none) (j + 1) (xs.drop (j + 1)) = true ∧
      (xs.getD j none).isSome = true
  · rw [if_pos hc] at hjv
    injection hjv with hjv
    rw [← hjv]
    exact hc.2
  · rw [if_neg hc] at hjv
    exact absurd hjv (by simp)

theorem filter_drops_undefined_values_witness :
    filterJs (some [none, some 1]) (fun _ _ _ => true) none 0 [0, 0] =
      some ([some (1 : ℕ)],
        [(none, 1, [some 1]), (some 1, 2, [])]) ∧
    ([some (1 : ℕ)] : List (Option ℕ)) =
      (List.range ([none, some (1 : ℕ)] : List (Option ℕ)).length).filterMap
        (fun j => if (fun (_ : Option ℕ) (_ : ℕ) (_ : List (Option ℕ)) => true)
              (([none, some 1] : List (Option ℕ)).getD j none) (j + 1)
              (([none, some 1] : List (Option ℕ)).drop (j + 1)) = true ∧
            (([none, some 1] : List (Option ℕ)).getD j none).isSome = true
          then some (([none, some 1] : List (Option ℕ)).getD j none) else none) :=
  ⟨by decide,
    (filter_drops_undefined_values [none, some 1] (fun _ _ _ => true) none 0 [0, 0]
      [some 1] [(none, 1, [some 1]), (some 1, 2, [])] (by decide)).2⟩
